import Mathlib

/-!
# Verification of the rui event-loop core

Shallow embedding of `src/event_loop.rs`:

* the menu compiler `build_menubar` / `make_menu_rec`, which turns a flat
  list of `CommandInfo` (colon-delimited paths) into an arena of `MenuItem2`
  nodes, then materializes a native menu and a `CommandMap` from native
  menu-item identity to command path;
* the per-event arms of the `rui` event loop: resize / scale-factor-change,
  mouse input, cursor move, and menu activation.

Numeric positions (`f32` in the source) are embedded as rationals; native
menu identities (opaque `MenuId` values in the source) are embedded as the
naturals issued by a fresh-identity counter.
-/

/-- `CommandInfo { path, key }` from the source: a colon-separated command
path plus an optional accelerator keycode (keycodes abstracted as `Nat`). -/
structure CommandInfo where
  path : String
  key : Option Nat
deriving DecidableEq, Repr

/-- `MenuItem2 { name, submenu, command }`: one arena node of the menu tree;
`submenu` holds child indices into the arena list. -/
structure MenuItem2 where
  name : String
  submenu : List Nat
  command : CommandInfo
deriving DecidableEq, Repr

/-- The synthetic root node seeded at index 0 by `build_menubar`. -/
def rootItem : MenuItem2 :=
  { name := "root", submenu := [], command := { path := "", key := none } }

/-- Out-of-range arena access placeholder (never reached on well-formed
arenas; Rust would panic). -/
def defaultItem : MenuItem2 :=
  { name := "", submenu := [], command := { path := "", key := none } }

/-- Arena lookup `items[v]`. -/
def getN (items : List MenuItem2) (v : Nat) : MenuItem2 :=
  items.getD v defaultItem

/-- `items[v].submenu.iter().find(|x| items[**x].name == name)`: first-match
linear scan of `v`'s children for a child named `name`. -/
def findChild (items : List MenuItem2) (v : Nat) (name : String) : Option Nat :=
  (getN items v).submenu.find? (fun x => (getN items x).name == name)

/-- The `else` branch of the walk in `build_menubar`: append index
`items.len()` to `v`'s child list and push a fresh node carrying the full
`command.clone()` of the command being inserted. -/
def pushChild (items : List MenuItem2) (v : Nat) (name : String) (c : CommandInfo) :
    List MenuItem2 :=
  items.set v
      { getN items v with submenu := (getN items v).submenu ++ [items.length] }
    ++ [{ name := name, submenu := [], command := c }]

/-- Helper for `splitColon`: accumulates the current segment (reversed). -/
def splitColonAux : List Char → List Char → List String
  | [], acc => [String.mk acc.reverse]
  | ch :: rest, acc =>
    if ch = ':' then String.mk acc.reverse :: splitColonAux rest []
    else splitColonAux rest (ch :: acc)

/-- Rust's `str::split(':')`: split on every occurrence of the colon, keeping
empty segments; the empty string yields the single segment `[""]`. -/
def splitColon (s : String) : List String :=
  splitColonAux s.data []

/-- The inner `for name in command.path.split(':')` walk of `build_menubar`,
threading the arena and the current node index `v`. -/
def insertSegs (c : CommandInfo) : List String → List MenuItem2 → Nat → List MenuItem2
  | [], items, _ => items
  | name :: rest, items, v =>
    match findChild items v name with
    | some j => insertSegs c rest items j
    | none => insertSegs c rest (pushChild items v name c) items.length

/-- Insertion of one command into the arena (one iteration of the outer
`for command in commands` loop). -/
def insertCmd (items : List MenuItem2) (c : CommandInfo) : List MenuItem2 :=
  insertSegs c (splitColon c.path) items 0

/-- The arena built by `build_menubar` before materialization: a root node at
index 0, then every command's path inserted in input order. -/
def buildItems (cs : List CommandInfo) : List MenuItem2 :=
  cs.foldl insertCmd [rootItem]

/-- The `CommandMap`: native menu identity (here: counter-issued `Nat`) to
command path. -/
abbrev CommandMap := List (Nat × String)

/-- `HashMap::insert` semantics: the new binding replaces any old binding of
the same key. -/
def mapInsert (m : CommandMap) (k : Nat) (v : String) : CommandMap :=
  (k, v) :: (List.filter (fun p => p.1 ≠ k) m)

/-- A materialized menu entry: the native about/quit items of the injected
application submenu, a named submenu, or an invocable item with its native
identity and optional accelerator key. The About display name comes from the
process environment and is abstracted away. -/
inductive MenuEntry where
  | about : MenuEntry
  | quit : MenuEntry
  | submenu : String → List MenuEntry → MenuEntry
  | item : String → Nat → Option Nat → MenuEntry

/-- One iteration of the `for j in &items[i].submenu` loop of
`make_menu_rec`, parametrized by the recursive call `recur` used for
non-leaf children: a childless child becomes an invocable item whose fresh
identity is recorded in the `CommandMap` against the child's stored
`command.path`; a child with children becomes a submenu. -/
def makeStep (items : List MenuItem2)
    (recur : Nat → Nat × CommandMap → List MenuEntry × (Nat × CommandMap))
    (acc : List MenuEntry × (Nat × CommandMap)) (j : Nat) :
    List MenuEntry × (Nat × CommandMap) :=
  let item := getN items j
  if item.submenu.isEmpty then
    (acc.1 ++ [MenuEntry.item item.name acc.2.1 item.command.key],
     (acc.2.1 + 1, mapInsert acc.2.2 acc.2.1 item.command.path))
  else
    let sub := recur j acc.2
    (acc.1 ++ [MenuEntry.submenu item.name sub.1], sub.2)

/-- `make_menu_rec(items, i, command_map)`: materialize the subtree rooted at
arena index `i`. The root invocation (`i = 0`) injects the application
submenu (about + quit) ahead of user items. Fresh native identities are
issued by the `Nat` counter threaded through the state; `fuel` bounds the
recursion depth (the source recursion terminates because child indices
strictly exceed parent indices, so `items.length` fuel always suffices). -/
def makeMenuRec : Nat → List MenuItem2 → Nat → Nat × CommandMap →
    List MenuEntry × (Nat × CommandMap)
  | 0, _, _, st => ([], st)
  | Nat.succ fuel, items, i, st =>
    let init : List MenuEntry :=
      if i = 0 then [MenuEntry.submenu "rui" [MenuEntry.about, MenuEntry.quit]] else []
    let r := (getN items i).submenu.foldl (makeStep items (makeMenuRec fuel items)) ([], st)
    (init ++ r.1, r.2)

/-- `build_menubar(commands, command_map)`: build the arena, then materialize
from the root with an initially empty `CommandMap` and identity counter. -/
def buildMenubar (cs : List CommandInfo) : List MenuEntry × (Nat × CommandMap) :=
  makeMenuRec (buildItems cs).length (buildItems cs) 0 (0, [])

/-! ## Event-loop arms

The per-event arms of the `rui` match, embedded as pure transition
functions. `f32` coordinates are embedded as rationals; each arm returns
the state it mutates together with the list of logical events passed to
`cx.process` (always zero or one). -/

/-- Logical positions (`LocalPoint` in the source, `f32` pair). -/
abbrev LocalPoint := ℚ × ℚ

/-- The toolkit's `MouseButton` stored in `cx.mouse_button`. -/
inductive MouseButton where
  | left
  | right
  | center
deriving DecidableEq, Repr

/-- The platform's `tao::event::MouseButton`: left, right, middle, or any
other numbered button. -/
inductive WMouseButton where
  | left
  | right
  | middle
  | other (n : Nat)
deriving DecidableEq, Repr

/-- The platform's `tao::event::ElementState` (non-exhaustive in the source;
the extra constructor stands for any unlisted state, handled by the
wildcard arm). -/
inductive ElementState where
  | pressed
  | released
  | unlisted
deriving DecidableEq, Repr

/-- The logical events this file of the source constructs and dispatches via
`cx.process`. -/
inductive Event where
  | touchBegin (id : Nat) (position : LocalPoint)
  | touchEnd (id : Nat) (position : LocalPoint)
  | touchMove (id : Nat) (position : LocalPoint)
  | command (path : String)
deriving DecidableEq, Repr

/-- The `match button` in the `Pressed` arm: which toolkit button, if any,
gets tracked in `cx.mouse_button`. -/
def trackButton : WMouseButton → Option MouseButton
  | WMouseButton.left => some MouseButton.left
  | WMouseButton.right => some MouseButton.right
  | WMouseButton.middle => some MouseButton.center
  | WMouseButton.other _ => none

/-- The `WindowEvent::MouseInput` arm: given the previously tracked button,
the element state, the raw button, and the last-known cursor position,
return the new `cx.mouse_button` and the dispatched events. -/
def handleMouseInput (mouseButton : Option MouseButton) (state : ElementState)
    (button : WMouseButton) (mousePosition : LocalPoint) :
    Option MouseButton × List Event :=
  match state with
  | ElementState.pressed => (trackButton button, [Event.touchBegin 0 mousePosition])
  | ElementState.released => (none, [Event.touchEnd 0 mousePosition])
  | ElementState.unlisted => (mouseButton, [])

/-- The surface configuration fields the resize arm mutates (`u32` in the
source, embedded as `Nat`). -/
structure SurfaceConfig where
  width : Nat
  height : Nat
deriving DecidableEq, Repr

/-- The `Resized` / `ScaleFactorChanged` arm: clamp the new size with
`.max(1)` into the surface configuration and request a redraw (the returned
flag; the source then calls `surface.configure` with this configuration). -/
def handleResize (config : SurfaceConfig) (w h : Nat) : SurfaceConfig × Bool :=
  ({ width := max w 1, height := max h 1 }, true)

/-- The `CursorMoved` arm: convert device pixels to logical units and flip
the vertical axis, store the result in `mouse_position`, and dispatch a
`TouchMove` with id 0 at it. -/
def handleCursorMoved (config : SurfaceConfig) (scale : ℚ) (px py : ℚ) :
    LocalPoint × List Event :=
  let pos : LocalPoint := (px / scale, ((config.height : ℚ) - py) / scale)
  (pos, [Event.touchMove 0 pos])

/-- The `MenuEvent` arm: look the native identity up in the `CommandMap`;
dispatch `Command(path)` when found, nothing otherwise. -/
def handleMenuEvent (commandMap : CommandMap) (menuId : Nat) : List Event :=
  match commandMap.lookup menuId with
  | some command => [Event.command command]
  | none => []

/-! ## Arena well-formedness and the tree walk

Specification-side notions used to state the claims about the compiled
arena: the deterministic walk that descends the tree by segment names, the
index well-formedness of the arena, and distinctness of sibling names. -/

/-- Walk a segment list down the arena from node `w`, following at each step
the (unique, first-match) child with the segment's name; `none` when some
segment has no matching child. This is exactly the lookup the insertion walk
performs when every segment is found. -/
def walkN (items : List MenuItem2) : List String → Nat → Option Nat
  | [], w => some w
  | s :: rest, w =>
    match findChild items w s with
    | some j => walkN items rest j
    | none => none

/-- Index well-formedness of the arena: every child index stored anywhere is
a valid non-root index. -/
def WFitems (items : List MenuItem2) : Prop :=
  ∀ v j, j ∈ (getN items v).submenu → 1 ≤ j ∧ j < items.length

/-- The names of `v`'s children, in child order. -/
def childNames (items : List MenuItem2) (v : Nat) : List String :=
  (getN items v).submenu.map (fun x => (getN items x).name)

/-- No node has two children with the same name. -/
def distinctChildNames (items : List MenuItem2) : Prop :=
  ∀ v : Nat, (childNames items v).Nodup

/-! ## Theorems for the simple event-loop claims -/

/-- C5: for every resize or scale-factor-change event, the surface
configuration's width and height are set to the new size clamped to a
minimum of 1 each (so a requested 0 becomes `max 0 1 = 1`, never 0) before
the surface is reconfigured with it, and a redraw is requested. -/
theorem resize_clamps_to_one (config : SurfaceConfig) (w h : Nat) :
    (handleResize config w h).1.width = max w 1 ∧
    (handleResize config w h).1.height = max h 1 ∧
    1 ≤ (handleResize config w h).1.width ∧
    1 ≤ (handleResize config w h).1.height ∧
    (handleResize config w h).2 = true := by
  refine ⟨rfl, rfl, ?_, ?_, rfl⟩ <;> exact le_max_right _ _

/-- C6: every cursor-move event with device position `(px, py)`, scale
factor `scale`, and surface height `config.height` dispatches exactly one
`TouchMove` whose position is `(px/scale, height/scale − py/scale)`
(vertical axis flipped), and stores exactly that position as the last-known
cursor position used by subsequent button events. -/
theorem cursor_move_position (config : SurfaceConfig) (scale px py : ℚ) :
    (handleCursorMoved config scale px py).2 =
      [Event.touchMove 0 (px / scale, (config.height : ℚ) / scale - py / scale)] ∧
    (handleCursorMoved config scale px py).1 =
      (px / scale, (config.height : ℚ) / scale - py / scale) := by
  constructor <;> simp [handleCursorMoved, sub_div]

/-- C7: a menu-activation event whose native identity is in the
`CommandMap` dispatches exactly one `Command` event carrying the mapped
path; an absent identity dispatches nothing (the lookup miss is silently
ignored; the arm is total, so no panic and no default dispatch). -/
theorem menu_activation_lookup (m : CommandMap) (menuId : Nat) :
    (∀ p, m.lookup menuId = some p →
      handleMenuEvent m menuId = [Event.command p]) ∧
    (m.lookup menuId = none → handleMenuEvent m menuId = []) := by
  constructor
  · intro p hp
    simp [handleMenuEvent, hp]
  · intro hp
    simp [handleMenuEvent, hp]

/-- Witness for C7 at a concrete map: identity 5 is mapped, identity 7 is
not. -/
theorem menu_activation_lookup_witness :
    handleMenuEvent [(5, "File:New")] 5 = [Event.command "File:New"] ∧
    handleMenuEvent [(5, "File:New")] 7 = [] :=
  ⟨(menu_activation_lookup [(5, "File:New")] 5).1 "File:New" (by decide),
   (menu_activation_lookup [(5, "File:New")] 7).2 (by decide)⟩

/-- C3 counterexample: a press of button `Other 7` (not left/right/middle)
still dispatches a `TouchBegin` event — the dispatched list is non-empty,
refuting the claim that such presses are dropped with no propagation. -/
theorem other_button_press_still_dispatches :
    (handleMouseInput (some MouseButton.left) ElementState.pressed
      (WMouseButton.other 7) (1, 2)).2 ≠ [] := by decide

/-- C3 amended: a press of a button other than left/right/middle sets the
tracked button to `none` (clearing any previously tracked button) but still
dispatches a `TouchBegin` (PointerDown) with identifier 0 at the last-known
cursor position. -/
theorem other_button_press_behavior (prev : Option MouseButton)
    (b : WMouseButton) (pos : LocalPoint)
    (h1 : b ≠ WMouseButton.left) (h2 : b ≠ WMouseButton.right)
    (h3 : b ≠ WMouseButton.middle) :
    handleMouseInput prev ElementState.pressed b pos =
      (none, [Event.touchBegin 0 pos]) := by
  cases b with
  | left => exact absurd rfl h1
  | right => exact absurd rfl h2
  | middle => exact absurd rfl h3
  | other n => rfl

/-- Witness for the amended C3 at button `Other 7`. -/
theorem other_button_press_behavior_witness :
    handleMouseInput (some MouseButton.left) ElementState.pressed
      (WMouseButton.other 7) (1, 2) = (none, [Event.touchBegin 0 (1, 2)]) :=
  other_button_press_behavior (some MouseButton.left) (WMouseButton.other 7)
    (1, 2) (by decide) (by decide) (by decide)

/-- C8: the empty command list compiles to a menu holding only the synthetic
application submenu (about + quit), zero user leaves, and an empty
`CommandMap`. -/
theorem empty_command_list_menu :
    buildMenubar [] =
      ([MenuEntry.submenu "rui" [MenuEntry.about, MenuEntry.quit]], (0, [])) := rfl

/-- C9: a command with the empty path is not rejected: splitting the empty
path on the colon yields the single empty segment, a child named `""` is
created under the root, and compilation proceeds normally (the node even
becomes an ordinary registered leaf). -/
theorem empty_path_not_rejected :
    splitColon "" = [""] ∧
    buildItems [{ path := "", key := none }] =
      [{ name := "root", submenu := [1], command := { path := "", key := none } },
       { name := "", submenu := [], command := { path := "", key := none } }] ∧
    buildMenubar [{ path := "", key := none }] =
      ([MenuEntry.submenu "rui" [MenuEntry.about, MenuEntry.quit],
        MenuEntry.item "" 0 none],
       (1, [(0, "")])) :=
  ⟨rfl, by decide, rfl⟩

/-- C2 counterexample: for the single command `File:New`, the internal node
`File` (it has a child) carries the full `CommandInfo` of the command that
created it — path `"File:New"`, not the empty-path placeholder the claim
asserts for internal nodes. -/
theorem internal_node_carries_full_command :
    (getN (buildItems [{ path := "File:New", key := none }]) 1).submenu ≠ [] ∧
    (getN (buildItems [{ path := "File:New", key := none }]) 1).command ≠
      { path := "", key := none } := by decide

/-! ## Basic arena lemmas -/

theorem getN_eq_getElem {items : List MenuItem2} {v : Nat} (h : v < items.length) :
    getN items v = items[v] := by
  simp [getN, List.getD_eq_getElem?_getD, List.getElem?_eq_getElem h]

theorem getN_eq_default {items : List MenuItem2} {v : Nat} (h : items.length ≤ v) :
    getN items v = defaultItem := by
  simp [getN, List.getD_eq_getElem?_getD, List.getElem?_eq_none h]

theorem find_agree {α : Type} {p q : α → Bool} :
    ∀ {l : List α}, (∀ x ∈ l, p x = q x) → List.find? p l = List.find? q l
  | [], _ => rfl
  | a :: l, h => by
    rw [List.find?_cons, List.find?_cons, h a (List.mem_cons_self a l)]
    cases q a
    · exact find_agree fun x hx => h x (List.mem_cons_of_mem a hx)
    · rfl

theorem length_pushChild (items : List MenuItem2) (v : Nat) (name : String)
    (c : CommandInfo) : (pushChild items v name c).length = items.length + 1 := by
  simp [pushChild]

theorem getN_pushChild_lt {items : List MenuItem2} {v j : Nat}
    (hv : v < items.length) (hj : j < items.length) (name : String) (c : CommandInfo) :
    getN (pushChild items v name c) j =
      if j = v then
        { getN items v with submenu := (getN items v).submenu ++ [items.length] }
      else getN items j := by
  have hA : j < (items.set v
      { getN items v with
        submenu := (getN items v).submenu ++ [items.length] }).length := by
    simpa using hj
  rw [pushChild, getN, List.getD_eq_getElem?_getD, List.getElem?_append_left hA,
    List.getElem?_set]
  by_cases h : j = v
  · subst h
    simp [hv]
  · have hvj : ¬ v = j := fun e => h e.symm
    simp [h, hvj, getN, List.getD_eq_getElem?_getD]

theorem getN_pushChild_len {items : List MenuItem2} {v : Nat}
    (hv : v < items.length) (name : String) (c : CommandInfo) :
    getN (pushChild items v name c) items.length =
      { name := name, submenu := [], command := c } := by
  rw [pushChild, getN, List.getD_eq_getElem?_getD,
    List.getElem?_append_right (le_of_eq (by simp))]
  simp

theorem getN_pushChild_big {items : List MenuItem2} {v j : Nat}
    (hj : items.length + 1 ≤ j) (name : String) (c : CommandInfo) :
    getN (pushChild items v name c) j = defaultItem :=
  getN_eq_default (by rw [length_pushChild]; exact hj)

theorem WFitems_pushChild {items : List MenuItem2} {v : Nat}
    (hW : WFitems items) (hv : v < items.length) (name : String) (c : CommandInfo) :
    WFitems (pushChild items v name c) := by
  intro w j hj
  rw [length_pushChild]
  rcases lt_trichotomy w items.length with hw | hw | hw
  · rw [getN_pushChild_lt hv hw] at hj
    by_cases hwv : w = v
    · rw [if_pos hwv] at hj
      rcases List.mem_append.1 hj with hj | hj
      · obtain ⟨h1, h2⟩ := hW v j hj
        exact ⟨h1, by omega⟩
      · have : j = items.length := by simpa using hj
        subst this
        exact ⟨by omega, by omega⟩
    · rw [if_neg hwv] at hj
      obtain ⟨h1, h2⟩ := hW w j hj
      exact ⟨h1, by omega⟩
  · subst hw
    rw [getN_pushChild_len hv] at hj
    simp at hj
  · rw [getN_pushChild_big (by omega)] at hj
    simp [defaultItem] at hj

theorem findChild_pushChild {items : List MenuItem2} {v : Nat}
    (hW : WFitems items) (hv : v < items.length) (name : String) (c : CommandInfo)
    {w : Nat} {s : String} {j : Nat} (h : findChild items w s = some j) :
    findChild (pushChild items v name c) w s = some j := by
  have hw : w < items.length := by
    by_contra hw
    rw [findChild, getN_eq_default (le_of_not_lt hw)] at h
    simp [defaultItem] at h
  have hpred : ∀ x ∈ (getN items w).submenu,
      ((getN (pushChild items v name c) x).name == s) =
        ((getN items x).name == s) := by
    intro x hx
    obtain ⟨_, hx2⟩ := hW w x hx
    rw [getN_pushChild_lt hv hx2]
    by_cases hxv : x = v
    · rw [if_pos hxv, hxv]
    · rw [if_neg hxv]
  rw [findChild] at h ⊢
  rw [getN_pushChild_lt hv hw]
  by_cases hwv : w = v
  · subst hwv
    rw [if_pos rfl]
    show List.find? _ ((getN items w).submenu ++ [items.length]) = some j
    rw [List.find?_append, find_agree hpred, h]
    rfl
  · rw [if_neg hwv, find_agree hpred, h]

theorem findChild_pushChild_self {items : List MenuItem2} {v : Nat}
    (hW : WFitems items) (hv : v < items.length) {name : String} (c : CommandInfo)
    (hnone : findChild items v name = none) :
    findChild (pushChild items v name c) v name = some items.length := by
  have hpred : ∀ x ∈ (getN items v).submenu,
      ((getN (pushChild items v name c) x).name == name) =
        ((getN items x).name == name) := by
    intro x hx
    obtain ⟨_, hx2⟩ := hW v x hx
    rw [getN_pushChild_lt hv hx2]
    by_cases hxv : x = v
    · rw [if_pos hxv, hxv]
    · rw [if_neg hxv]
  rw [findChild, getN_pushChild_lt hv hv, if_pos rfl]
  show List.find? _ ((getN items v).submenu ++ [items.length]) = some _
  rw [List.find?_append, find_agree hpred]
  rw [findChild] at hnone
  rw [hnone, Option.none_or, List.find?_cons, getN_pushChild_len hv]
  simp

theorem walkN_pushChild {items : List MenuItem2} {v : Nat}
    (hW : WFitems items) (hv : v < items.length) (name : String) (c : CommandInfo) :
    ∀ (segs : List String) (w u : Nat), walkN items segs w = some u →
      walkN (pushChild items v name c) segs w = some u
  | [], _, _, h => h
  | s :: rest, w, u, h => by
    rw [walkN] at h ⊢
    cases hf : findChild items w s with
    | none => rw [hf] at h; exact absurd h (by simp)
    | some j =>
      rw [hf] at h
      rw [findChild_pushChild hW hv name c hf]
      exact walkN_pushChild hW hv name c rest j u h

theorem walkN_append (items : List MenuItem2) :
    ∀ (l1 l2 : List String) (w : Nat),
      walkN items (l1 ++ l2) w = (walkN items l1 w).bind (walkN items l2)
  | [], l2, w => rfl
  | s :: l1, l2, w => by
    rw [List.cons_append, walkN, walkN]
    cases hf : findChild items w s with
    | none => rfl
    | some j => exact walkN_append items l1 l2 j

theorem distinctChildNames_pushChild {items : List MenuItem2} {v : Nat}
    (hW : WFitems items) (hv : v < items.length) {name : String} (c : CommandInfo)
    (hnone : findChild items v name = none)
    (hD : distinctChildNames items) :
    distinctChildNames (pushChild items v name c) := by
  intro w
  have hnames : ∀ x ∈ (getN items v).submenu,
      (getN (pushChild items v name c) x).name = (getN items x).name := by
    intro x hx
    obtain ⟨_, hx2⟩ := hW v x hx
    rw [getN_pushChild_lt hv hx2]
    by_cases hxv : x = v
    · rw [if_pos hxv, hxv]
    · rw [if_neg hxv]
  rcases lt_trichotomy w items.length with hw | hw | hw
  · unfold childNames
    rw [getN_pushChild_lt hv hw]
    by_cases hwv : w = v
    · rw [if_pos hwv]
      subst hwv
      rw [List.map_append]
      rw [List.map_congr_left hnames]
      rw [List.nodup_append]
      refine ⟨hD w, by simp, ?_⟩
      intro s hs hs2
      have hsn : s = name := by
        simp only [List.map_cons, List.map_nil, List.mem_cons] at hs2
        rcases hs2 with hs2 | hs2
        · rw [getN_pushChild_len hv] at hs2
          exact hs2
        · simp at hs2
      subst hsn
      rw [findChild] at hnone
      obtain ⟨x, hx, hxn⟩ := List.mem_map.1 hs
      have := List.find?_eq_none.1 hnone x hx
      simp only [beq_iff_eq] at this
      exact this hxn
    · rw [if_neg hwv]
      have hnames2 : ∀ x ∈ (getN items w).submenu,
          (getN (pushChild items v name c) x).name = (getN items x).name := by
        intro x hx
        obtain ⟨_, hx2⟩ := hW w x hx
        rw [getN_pushChild_lt hv hx2]
        by_cases hxv : x = v
        · rw [if_pos hxv, hxv]
        · rw [if_neg hxv]
      rw [List.map_congr_left hnames2]
      exact hD w
  · subst hw
    unfold childNames
    rw [getN_pushChild_len hv]
    simp
  · unfold childNames
    rw [getN_pushChild_big (by omega)]
    simp [defaultItem]

/-- Combined specification of one insertion walk `insertSegs`: it preserves
well-formedness, only grows the arena, preserves successful walks, keeps the
name/command of existing nodes (and never empties a child list), stamps the
inserted command on every new node, preserves sibling-name distinctness, and
its end node is the walk target of the inserted path — with every new
childless node equal to that end node. -/
theorem insertSegs_spec (c : CommandInfo) :
    ∀ (segs : List String) (items : List MenuItem2) (v : Nat) (pfx : List String),
      WFitems items → v < items.length → walkN items pfx 0 = some v →
      WFitems (insertSegs c segs items v) ∧
      items.length ≤ (insertSegs c segs items v).length ∧
      (∀ (segs₂ : List String) (w u : Nat), walkN items segs₂ w = some u →
        walkN (insertSegs c segs items v) segs₂ w = some u) ∧
      (∀ j, j < items.length →
        (getN (insertSegs c segs items v) j).name = (getN items j).name ∧
        (getN (insertSegs c segs items v) j).command = (getN items j).command ∧
        ((getN (insertSegs c segs items v) j).submenu = [] →
          (getN items j).submenu = [])) ∧
      (∀ j, items.length ≤ j → j < (insertSegs c segs items v).length →
        (getN (insertSegs c segs items v) j).command = c) ∧
      (distinctChildNames items → distinctChildNames (insertSegs c segs items v)) ∧
      (∃ e, walkN (insertSegs c segs items v) (pfx ++ segs) 0 = some e ∧
        ∀ j, items.length ≤ j → j < (insertSegs c segs items v).length →
          (getN (insertSegs c segs items v) j).submenu = [] → j = e) := by
  intro segs
  induction segs with
  | nil =>
    intro items v pfx hW hv hpfx
    refine ⟨hW, le_refl _, fun _ _ _ h => h, fun j _ => ⟨rfl, rfl, id⟩,
      fun j h1 h2 => absurd (show j < items.length from h2) (by omega), id,
      ⟨v, by simpa [insertSegs] using hpfx,
        fun j h1 h2 _ => absurd (show j < items.length from h2) (by omega)⟩⟩
  | cons name rest ih =>
    intro items v pfx hW hv hpfx
    cases hf : findChild items v name with
    | some j =>
      have hf' : List.find? (fun x => (getN items x).name == name)
          (getN items v).submenu = some j := hf
      have hj := hW v j (List.mem_of_find?_eq_some hf')
      have hpfx' : walkN items (pfx ++ [name]) 0 = some j := by
        rw [walkN_append, hpfx, Option.some_bind, walkN, hf]
        rfl
      obtain ⟨A, B, C, D, E, F, e, ge, gu⟩ :=
        ih items j (pfx ++ [name]) hW hj.2 hpfx'
      simp only [insertSegs, hf]
      exact ⟨A, B, C, D, E, F,
        ⟨e, by rwa [List.append_assoc, List.singleton_append] at ge, gu⟩⟩
    | none =>
      have hW₁ := WFitems_pushChild hW hv name c
      have hlen₁ := length_pushChild items v name c
      have hv₁ : items.length < (pushChild items v name c).length := by omega
      have hpfxstep : walkN (pushChild items v name c) pfx 0 = some v :=
        walkN_pushChild hW hv name c pfx 0 v hpfx
      have hpfx₁ : walkN (pushChild items v name c) (pfx ++ [name]) 0 =
          some items.length := by
        rw [walkN_append, hpfxstep, Option.some_bind, walkN,
          findChild_pushChild_self hW hv c hf]
        rfl
      obtain ⟨A, B, C, D, E, F, e, ge, gu⟩ :=
        ih (pushChild items v name c) items.length (pfx ++ [name]) hW₁ hv₁ hpfx₁
      simp only [insertSegs, hf]
      have hstep4 : ∀ j, j < items.length →
          (getN (pushChild items v name c) j).name = (getN items j).name ∧
          (getN (pushChild items v name c) j).command = (getN items j).command ∧
          ((getN (pushChild items v name c) j).submenu = [] →
            (getN items j).submenu = []) := by
        intro j hjlt
        rw [getN_pushChild_lt hv hjlt]
        by_cases hjv : j = v
        · rw [if_pos hjv, hjv]
          exact ⟨rfl, rfl, fun h => absurd h (by simp)⟩
        · rw [if_neg hjv]
          exact ⟨rfl, rfl, id⟩
      refine ⟨A, by omega, ?_, ?_, ?_, ?_, ?_⟩
      · intro segs₂ w u h
        exact C segs₂ w u (walkN_pushChild hW hv name c segs₂ w u h)
      · intro j hjlt
        obtain ⟨d1, d2, d3⟩ := D j (by omega)
        obtain ⟨s1, s2, s3⟩ := hstep4 j hjlt
        exact ⟨d1.trans s1, d2.trans s2, fun h => s3 (d3 h)⟩
      · intro j h1 h2
        rcases Nat.eq_or_lt_of_le h1 with he | hlt
        · obtain ⟨_, d2, _⟩ := D j (by omega)
          rw [d2, ← he, getN_pushChild_len hv]
        · exact E j (by omega) h2
      · intro hD
        exact F (distinctChildNames_pushChild hW hv c hf hD)
      · refine ⟨e, by rwa [List.append_assoc, List.singleton_append] at ge, ?_⟩
        intro j h1 h2 hsub
        rcases Nat.eq_or_lt_of_le h1 with he | hlt
        · subst he
          have hwalkn : walkN (insertSegs c rest (pushChild items v name c)
              items.length) (pfx ++ [name]) 0 = some items.length :=
            C (pfx ++ [name]) 0 items.length hpfx₁
          have hge : walkN (insertSegs c rest (pushChild items v name c)
              items.length) ((pfx ++ [name]) ++ rest) 0 = some e := ge
          rw [walkN_append, hwalkn, Option.some_bind] at hge
          cases rest with
          | nil =>
            rw [walkN] at hge
            exact Option.some.inj hge
          | cons r rest' =>
            rw [walkN] at hge
            have hnone : findChild (insertSegs c (r :: rest')
                (pushChild items v name c) items.length) items.length r = none := by
              rw [findChild, hsub]
              rfl
            rw [hnone] at hge
            exact absurd hge (by simp)
        · exact gu j (by omega) h2 hsub

theorem wf_root : WFitems [rootItem] := by
  intro v j hj
  match v with
  | 0 => simp [getN, rootItem] at hj
  | Nat.succ w =>
    rw [getN_eq_default (by simp)] at hj
    simp [defaultItem] at hj

theorem dsn_root : distinctChildNames [rootItem] := by
  intro v
  unfold childNames
  match v with
  | 0 => simp [getN, rootItem]
  | Nat.succ w =>
    rw [getN_eq_default (by simp)]
    simp [defaultItem]

theorem foldl_wf :
    ∀ (cs : List CommandInfo) (items : List MenuItem2),
      WFitems items → 0 < items.length →
      WFitems (cs.foldl insertCmd items) ∧ 0 < (cs.foldl insertCmd items).length
  | [], items, hW, hl => ⟨hW, hl⟩
  | c :: cs, items, hW, hl => by
    obtain ⟨A, B, _⟩ :=
      insertSegs_spec c (splitColon c.path) items 0 [] hW hl rfl
    simpa only [List.foldl_cons] using
      foldl_wf cs (insertCmd items c) A (by
        show 0 < (insertSegs c (splitColon c.path) items 0).length
        omega)

theorem foldl_stab :
    ∀ (cs : List CommandInfo) (items : List MenuItem2),
      WFitems items → 0 < items.length →
      ∀ (segs : List String) (w u : Nat), walkN items segs w = some u →
        walkN (cs.foldl insertCmd items) segs w = some u
  | [], _, _, _, _, _, _, h => h
  | c :: cs, items, hW, hl, segs, w, u, h => by
    obtain ⟨A, B, C, _⟩ :=
      insertSegs_spec c (splitColon c.path) items 0 [] hW hl rfl
    simpa only [List.foldl_cons] using
      foldl_stab cs (insertCmd items c) A (by
        show 0 < (insertSegs c (splitColon c.path) items 0).length
        omega) segs w u (C segs w u h)

theorem foldl_cmds :
    ∀ (cs : List CommandInfo) (items : List MenuItem2) (S : List CommandInfo),
      WFitems items → 0 < items.length →
      (∀ j, 1 ≤ j → j < items.length → (getN items j).command ∈ S) →
      (∀ c ∈ cs, c ∈ S) →
      ∀ j, 1 ≤ j → j < (cs.foldl insertCmd items).length →
        (getN (cs.foldl insertCmd items) j).command ∈ S
  | [], _, _, _, _, hbase, _, j, h1, h2 => hbase j h1 h2
  | c :: cs, items, S, hW, hl, hbase, hcs, j, h1, h2 => by
    obtain ⟨A, B, C, D, E, _⟩ :=
      insertSegs_spec c (splitColon c.path) items 0 [] hW hl rfl
    have hbase1 : ∀ j, 1 ≤ j → j < (insertCmd items c).length →
        (getN (insertCmd items c) j).command ∈ S := by
      intro j h1 h2
      by_cases hj : j < items.length
      · obtain ⟨_, d2, _⟩ := D j hj
        rw [show (getN (insertCmd items c) j).command =
          (getN (insertSegs c (splitColon c.path) items 0) j).command from rfl, d2]
        exact hbase j h1 hj
      · rw [show (getN (insertCmd items c) j).command =
          (getN (insertSegs c (splitColon c.path) items 0) j).command from rfl,
          E j (by omega) h2]
        exact hcs c (List.mem_cons_self c cs)
    rw [List.foldl_cons] at h2 ⊢
    exact foldl_cmds cs (insertCmd items c) S A (by
        show 0 < (insertSegs c (splitColon c.path) items 0).length
        omega) hbase1 (fun d hd => hcs d (List.mem_cons_of_mem c hd)) j h1 h2

theorem foldl_leafwalk :
    ∀ (cs : List CommandInfo) (items : List MenuItem2),
      WFitems items → 0 < items.length →
      (∀ j, 1 ≤ j → j < items.length → (getN items j).submenu = [] →
        walkN items (splitColon ((getN items j).command.path)) 0 = some j) →
      ∀ j, 1 ≤ j → j < (cs.foldl insertCmd items).length →
        (getN (cs.foldl insertCmd items) j).submenu = [] →
        walkN (cs.foldl insertCmd items)
          (splitColon ((getN (cs.foldl insertCmd items) j).command.path)) 0 = some j
  | [], _, _, _, hbase, j, h1, h2, h3 => hbase j h1 h2 h3
  | c :: cs, items, hW, hl, hbase, j, h1, h2, h3 => by
    obtain ⟨A, B, C, D, E, _, e, ge, gu⟩ :=
      insertSegs_spec c (splitColon c.path) items 0 [] hW hl rfl
    have hl1 : 0 < (insertCmd items c).length := by
      show 0 < (insertSegs c (splitColon c.path) items 0).length
      omega
    have hbase1 : ∀ k, 1 ≤ k → k < (insertCmd items c).length →
        (getN (insertCmd items c) k).submenu = [] →
        walkN (insertCmd items c)
          (splitColon ((getN (insertCmd items c) k).command.path)) 0 = some k := by
      simp only [insertCmd]
      intro k hk1 hk2 hk3
      by_cases hk : k < items.length
      · obtain ⟨_, d2, d3⟩ := D k hk
        rw [d2]
        exact C _ 0 k (hbase k hk1 hk (d3 hk3))
      · have hke : k = e := gu k (by omega) hk2 hk3
        rw [E k (by omega) hk2, hke]
        simpa using ge
    rw [List.foldl_cons] at h2 h3 ⊢
    exact foldl_leafwalk cs (insertCmd items c) A hl1 hbase1 j h1 h2 h3

theorem foldl_dsn :
    ∀ (cs : List CommandInfo) (items : List MenuItem2),
      WFitems items → 0 < items.length → distinctChildNames items →
      distinctChildNames (cs.foldl insertCmd items)
  | [], _, _, _, hD => hD
  | c :: cs, items, hW, hl, hD => by
    obtain ⟨A, B, _, _, _, F, _⟩ :=
      insertSegs_spec c (splitColon c.path) items 0 [] hW hl rfl
    simpa only [List.foldl_cons] using
      foldl_dsn cs (insertCmd items c) A (by
        show 0 < (insertSegs c (splitColon c.path) items 0).length
        omega) (F hD)

theorem foldl_resolve :
    ∀ (cs : List CommandInfo) (items : List MenuItem2),
      WFitems items → 0 < items.length →
      ∀ c ∈ cs, ∃ e, walkN (cs.foldl insertCmd items) (splitColon c.path) 0 = some e
  | [], _, _, _, c, hc => absurd hc (List.not_mem_nil c)
  | c' :: cs, items, hW, hl, c, hc => by
    obtain ⟨A, B, C, _, _, _, e, ge, _⟩ :=
      insertSegs_spec c' (splitColon c'.path) items 0 [] hW hl rfl
    have hl1 : 0 < (insertCmd items c').length := by
      show 0 < (insertSegs c' (splitColon c'.path) items 0).length
      omega
    rw [List.foldl_cons]
    rcases List.mem_cons.1 hc with he | hmem
    · subst he
      exact ⟨e, foldl_stab cs (insertCmd items c) A hl1 _ 0 e (by simpa using ge)⟩
    · exact foldl_resolve cs (insertCmd items c') A hl1 c hmem

/-! ## Invariants of the compiled arena -/

theorem buildItems_wf (cs : List CommandInfo) :
    WFitems (buildItems cs) ∧ 0 < (buildItems cs).length :=
  foldl_wf cs [rootItem] wf_root (by simp)

theorem buildItems_cmds (cs : List CommandInfo) :
    ∀ j, 1 ≤ j → j < (buildItems cs).length →
      (getN (buildItems cs) j).command ∈ cs :=
  foldl_cmds cs [rootItem] cs wf_root (by simp)
    (fun j h1 h2 => absurd (show j < 1 from by simpa using h2) (by omega))
    (fun _ hc => hc)

theorem buildItems_leafwalk (cs : List CommandInfo) :
    ∀ j, 1 ≤ j → j < (buildItems cs).length →
      (getN (buildItems cs) j).submenu = [] →
      walkN (buildItems cs)
        (splitColon ((getN (buildItems cs) j).command.path)) 0 = some j :=
  foldl_leafwalk cs [rootItem] wf_root (by simp)
    (fun j h1 h2 => absurd (show j < 1 from by simpa using h2) (by omega))

theorem buildItems_dsn (cs : List CommandInfo) :
    distinctChildNames (buildItems cs) :=
  foldl_dsn cs [rootItem] wf_root (by simp) dsn_root

theorem buildItems_resolve (cs : List CommandInfo) :
    ∀ c ∈ cs, ∃ e, walkN (buildItems cs) (splitColon c.path) 0 = some e :=
  foldl_resolve cs [rootItem] wf_root (by simp)

/-! ## Provenance of CommandMap entries -/

theorem mem_mapInsert {m : CommandMap} {k : Nat} {v : String} {e : Nat × String}
    (h : e ∈ mapInsert m k v) : e = (k, v) ∨ e ∈ m := by
  rcases List.mem_cons.1 h with he | he
  · exact Or.inl he
  · exact Or.inr (List.mem_filter.1 he).1

theorem nodup_keys_mapInsert {m : CommandMap} {k : Nat} {v : String}
    (h : (m.map Prod.fst).Nodup) : ((mapInsert m k v).map Prod.fst).Nodup := by
  unfold mapInsert
  rw [List.map_cons, List.nodup_cons]
  constructor
  · intro hk
    obtain ⟨e, he, hek⟩ := List.mem_map.1 hk
    have hne := (List.mem_filter.1 he).2
    simp only [decide_eq_true_eq] at hne
    exact hne hek
  · exact List.Nodup.sublist (List.Sublist.map Prod.fst (List.filter_sublist m)) h

/-- Every entry the materialization adds to the `CommandMap` comes from a
childless arena node and records that node's stored command path. -/
theorem mem_map_makeMenuRec :
    ∀ (fuel : Nat) (items : List MenuItem2), WFitems items →
      ∀ (i : Nat) (st : Nat × CommandMap) (k : Nat) (p : String),
        (k, p) ∈ (makeMenuRec fuel items i st).2.2 →
        (k, p) ∈ st.2 ∨ ∃ j, 1 ≤ j ∧ j < items.length ∧
          (getN items j).submenu = [] ∧ p = (getN items j).command.path := by
  intro fuel
  induction fuel with
  | zero => intro items hW i st k p h; exact Or.inl h
  | succ fuel ih =>
    intro items hW i st k p h
    have hfold : ∀ (js : List Nat) (acc : List MenuEntry × (Nat × CommandMap)),
        (∀ j ∈ js, 1 ≤ j ∧ j < items.length) →
        (k, p) ∈ (js.foldl (makeStep items (makeMenuRec fuel items)) acc).2.2 →
        (k, p) ∈ acc.2.2 ∨ ∃ j, 1 ≤ j ∧ j < items.length ∧
          (getN items j).submenu = [] ∧ p = (getN items j).command.path := by
      intro js
      induction js with
      | nil => intro acc _ h; exact Or.inl h
      | cons j js ihl =>
        intro acc hjs h
        rw [List.foldl_cons] at h
        rcases ihl (makeStep items (makeMenuRec fuel items) acc j)
            (fun x hx => hjs x (List.mem_cons_of_mem j hx)) h with h1 | h1
        · obtain ⟨hj1, hj2⟩ := hjs j (List.mem_cons_self j js)
          simp only [makeStep] at h1
          by_cases hleaf : (getN items j).submenu.isEmpty
          · rw [if_pos hleaf] at h1
            rcases mem_mapInsert h1 with he | he
            · exact Or.inr ⟨j, hj1, hj2, List.isEmpty_iff.1 hleaf,
                congrArg Prod.snd he⟩
            · exact Or.inl he
          · rw [if_neg hleaf] at h1
            exact ih items hW j acc.2 k p h1
        · exact Or.inr h1
    simp only [makeMenuRec] at h
    exact hfold (getN items i).submenu ([], st) (fun j hj => hW i j hj) h

/-- Each leaf registration uses a fresh identity, so the key list of the
produced `CommandMap` has no duplicates whenever the input's does. -/
theorem nodup_keys_makeMenuRec :
    ∀ (fuel : Nat) (items : List MenuItem2) (i : Nat) (st : Nat × CommandMap),
      (st.2.map Prod.fst).Nodup →
      ((makeMenuRec fuel items i st).2.2.map Prod.fst).Nodup := by
  intro fuel
  induction fuel with
  | zero => intro items i st h; exact h
  | succ fuel ih =>
    intro items i st h
    have hfold : ∀ (js : List Nat) (acc : List MenuEntry × (Nat × CommandMap)),
        (acc.2.2.map Prod.fst).Nodup →
        ((js.foldl (makeStep items (makeMenuRec fuel items)) acc).2.2.map
          Prod.fst).Nodup := by
      intro js
      induction js with
      | nil => intro acc h; exact h
      | cons j js ihl =>
        intro acc hacc
        rw [List.foldl_cons]
        apply ihl
        simp only [makeStep]
        by_cases hleaf : (getN items j).submenu.isEmpty
        · rw [if_pos hleaf]
          exact nodup_keys_mapInsert hacc
        · rw [if_neg hleaf]
          exact ih items j acc.2 hacc
    simp only [makeMenuRec]
    exact hfold (getN items i).submenu ([], st) h

/-! ## Theorems for the menu-compiler claims -/

/-- C1: every `CommandMap` entry produced by menu materialization maps its
fresh native identity (key freshness: the key list is duplicate-free) to
exactly the original `CommandInfo.path` string of a command of the input
list (the childless node it was registered from stores the creating
command's full original `CommandInfo`), regardless of tree depth or sibling
ordering. -/
theorem command_map_entry_is_original_path (cs : List CommandInfo) (k : Nat)
    (p : String) (h : (k, p) ∈ (buildMenubar cs).2.2) :
    (∃ c ∈ cs, p = c.path) ∧ ((buildMenubar cs).2.2.map Prod.fst).Nodup := by
  constructor
  · rcases mem_map_makeMenuRec (buildItems cs).length (buildItems cs)
        (buildItems_wf cs).1 0 (0, []) k p h with h1 | h1
    · exact absurd h1 (List.not_mem_nil _)
    · obtain ⟨j, h1, h2, _, h4⟩ := h1
      exact ⟨(getN (buildItems cs) j).command, buildItems_cmds cs j h1 h2, h4⟩
  · exact nodup_keys_makeMenuRec (buildItems cs).length (buildItems cs) 0 (0, [])
      (by simp)

/-- Witness for C1 on the single command `File:New`, whose map is
`[(0, "File:New")]`. -/
theorem command_map_entry_is_original_path_witness :
    (∃ c ∈ [({ path := "File:New", key := none } : CommandInfo)],
      "File:New" = c.path) ∧
    ((buildMenubar [({ path := "File:New", key := none } : CommandInfo)]).2.2.map
      Prod.fst).Nodup :=
  command_map_entry_is_original_path
    [({ path := "File:New", key := none } : CommandInfo)] 0 "File:New" (by decide)

/-- C2 amended: newly appended nodes do not start as empty placeholders —
every non-root node of the compiled arena (internal nodes included) carries
the full original `CommandInfo` of a command of the input list, namely the
one whose insertion created it; only the synthetic root carries the empty
placeholder. -/
theorem appended_nodes_carry_full_command (cs : List CommandInfo) (j : Nat)
    (h1 : 1 ≤ j) (h2 : j < (buildItems cs).length) :
    (getN (buildItems cs) j).command ∈ cs :=
  buildItems_cmds cs j h1 h2

/-- Witness for the amended C2: the internal `File` node of
`buildItems ["File:New"]` carries the listed command `File:New`. -/
theorem appended_nodes_carry_full_command_witness :
    (getN (buildItems [({ path := "File:New", key := none } : CommandInfo)])
      1).command ∈ [({ path := "File:New", key := none } : CommandInfo)] :=
  appended_nodes_carry_full_command
    [({ path := "File:New", key := none } : CommandInfo)] 1 (by decide) (by decide)

/-- C4: two commands of the list whose split paths share a common segment
prefix share the same ancestor node for it: the shared prefix resolves (for
both commands, since the walk depends only on the segments) to a single
existing node, no node ever has two children with an equal name (the
first-match linear scan reuses the existing child instead of creating a
second one), and `["File:New", "File:Open"]` concretely yields one `File`
submenu containing the two leaves. -/
theorem shared_path_same_ancestor (cs : List CommandInfo)
    (c₁ c₂ : CommandInfo) (pfx sfx₁ sfx₂ : List String)
    (h₁ : c₁ ∈ cs) (h₂ : c₂ ∈ cs)
    (hp₁ : splitColon c₁.path = pfx ++ sfx₁)
    (hp₂ : splitColon c₂.path = pfx ++ sfx₂) :
    (∃ a, walkN (buildItems cs) pfx 0 = some a) ∧
    distinctChildNames (buildItems cs) ∧
    buildMenubar [({ path := "File:New", key := none } : CommandInfo),
        ({ path := "File:Open", key := none } : CommandInfo)] =
      ([MenuEntry.submenu "rui" [MenuEntry.about, MenuEntry.quit],
        MenuEntry.submenu "File"
          [MenuEntry.item "New" 0 none, MenuEntry.item "Open" 1 none]],
       (2, [(1, "File:Open"), (0, "File:New")])) := by
  refine ⟨?_, buildItems_dsn cs, rfl⟩
  obtain ⟨e, he⟩ := buildItems_resolve cs c₁ h₁
  rw [hp₁, walkN_append] at he
  cases hw : walkN (buildItems cs) pfx 0 with
  | none => rw [hw] at he; exact absurd he (by simp)
  | some a => exact ⟨a, rfl⟩

/-- Witness for C4 at `["File:New", "File:Open"]` with shared prefix
`["File"]`. -/
theorem shared_path_same_ancestor_witness :
    (∃ a, walkN (buildItems
      [({ path := "File:New", key := none } : CommandInfo),
       ({ path := "File:Open", key := none } : CommandInfo)]) ["File"] 0 =
        some a) ∧
    distinctChildNames (buildItems
      [({ path := "File:New", key := none } : CommandInfo),
       ({ path := "File:Open", key := none } : CommandInfo)]) ∧
    buildMenubar [({ path := "File:New", key := none } : CommandInfo),
        ({ path := "File:Open", key := none } : CommandInfo)] =
      ([MenuEntry.submenu "rui" [MenuEntry.about, MenuEntry.quit],
        MenuEntry.submenu "File"
          [MenuEntry.item "New" 0 none, MenuEntry.item "Open" 1 none]],
       (2, [(1, "File:Open"), (0, "File:New")])) :=
  shared_path_same_ancestor
    [({ path := "File:New", key := none } : CommandInfo),
     ({ path := "File:Open", key := none } : CommandInfo)]
    { path := "File:New", key := none } { path := "File:Open", key := none }
    ["File"] ["New"] ["Open"] (by decide) (by decide) (by decide) (by decide)

/-- C10: when a command's full path walks to an arena node that (finally)
has children — e.g. `"File"` in `["File:New", "File"]` — that command
produces no `CommandMap` entry at all (and hence no invocable menu leaf,
since leaves are invocable exactly through their map entry): the walk reuses
existing nodes without updating them, and only childless nodes are
registered. -/
theorem shadowed_command_unregistered (cs : List CommandInfo)
    (c : CommandInfo) (v : Nat) (hc : c ∈ cs)
    (hwalk : walkN (buildItems cs) (splitColon c.path) 0 = some v)
    (hsub : (getN (buildItems cs) v).submenu ≠ []) :
    ∀ k p, (k, p) ∈ (buildMenubar cs).2.2 → p ≠ c.path := by
  intro k p h hpc
  rcases mem_map_makeMenuRec (buildItems cs).length (buildItems cs)
      (buildItems_wf cs).1 0 (0, []) k p h with h1 | h1
  · exact absurd h1 (List.not_mem_nil _)
  · obtain ⟨j, h1, h2, h3, h4⟩ := h1
    have hwj := buildItems_leafwalk cs j h1 h2 h3
    rw [← h4, hpc] at hwj
    have hjv : v = j := Option.some.inj (hwalk.symm.trans hwj)
    rw [hjv] at hsub
    exact hsub h3

/-- Witness for C10: in `["File:New", "File"]` the map is
`[(0, "File:New")]` and the shadowed `File` command has no entry. -/
theorem shadowed_command_unregistered_witness :
    ((0 : Nat), "File") ∉ (buildMenubar
      [({ path := "File:New", key := none } : CommandInfo),
       ({ path := "File", key := none } : CommandInfo)]).2.2 :=
  fun h => shadowed_command_unregistered
    [({ path := "File:New", key := none } : CommandInfo),
     ({ path := "File", key := none } : CommandInfo)]
    { path := "File", key := none } 1 (by decide) (by decide) (by decide)
    0 "File" h rfl
